import Mathlib

/-!
Verification development for the Rust code generator backend
(`src/libninja/src/rust/codegen.rs`): identifier sanitization, the
reference-type classifier, the example-value synthesizer, and the
emission-IR renderers, shallowly embedded as executable Lean functions.

Rendered token streams are modelled as `List String` of atomic tokens.
External crates (`convert_case`, `syn`, `openapiv3`) are modelled by
small executable functions that follow the behaviour the source and its
tests rely on; panics of the Rust code are modelled as `Except` errors.
-/

deriving instance DecidableEq for Except

namespace Codegen

/-! ## Character helpers (ASCII model of the casing library)

The source uses the external `convert_case` crate.  We model its ASCII
behaviour: words are split on the delimiters `_`, `-`, space and on
letter-case/digit boundaries, then re-cased.  The spec notes that the
casing algorithm treats a digit after a lowercase letter as a word
boundary (which the `sanitize` regex afterwards repairs), so that
boundary is included. -/

def lowerChar (c : Char) : Char :=
  match c with
  | 'A' => 'a' | 'B' => 'b' | 'C' => 'c' | 'D' => 'd' | 'E' => 'e'
  | 'F' => 'f' | 'G' => 'g' | 'H' => 'h' | 'I' => 'i' | 'J' => 'j'
  | 'K' => 'k' | 'L' => 'l' | 'M' => 'm' | 'N' => 'n' | 'O' => 'o'
  | 'P' => 'p' | 'Q' => 'q' | 'R' => 'r' | 'S' => 's' | 'T' => 't'
  | 'U' => 'u' | 'V' => 'v' | 'W' => 'w' | 'X' => 'x' | 'Y' => 'y'
  | 'Z' => 'z'
  | c => c

def upperChar (c : Char) : Char :=
  match c with
  | 'a' => 'A' | 'b' => 'B' | 'c' => 'C' | 'd' => 'D' | 'e' => 'E'
  | 'f' => 'F' | 'g' => 'G' | 'h' => 'H' | 'i' => 'I' | 'j' => 'J'
  | 'k' => 'K' | 'l' => 'L' | 'm' => 'M' | 'n' => 'N' | 'o' => 'O'
  | 'p' => 'P' | 'q' => 'Q' | 'r' => 'R' | 's' => 'S' | 't' => 'T'
  | 'u' => 'U' | 'v' => 'V' | 'w' => 'W' | 'x' => 'X' | 'y' => 'Y'
  | 'z' => 'Z'
  | c => c

def isDelimChar (c : Char) : Bool :=
  c = '_' || c = '-' || c = ' '

/-- Word boundary between two adjacent non-delimiter characters:
lower-to-upper, digit-to-letter and letter-to-digit transitions. -/
def isWordBoundary (a b : Char) : Bool :=
  (a.isLower && b.isUpper) ||
  (a.isDigit && (b.isLower || b.isUpper)) ||
  ((a.isLower || a.isUpper) && b.isDigit)

/-- Split a character list into words.  `cur` holds the current word in
reverse order. -/
def wordsAux (cur : List Char) : List Char → List (List Char)
  | [] => if cur.isEmpty then [] else [cur.reverse]
  | c :: cs =>
    if isDelimChar c then
      if cur.isEmpty then wordsAux [] cs else cur.reverse :: wordsAux [] cs
    else
      match cur with
      | [] => wordsAux [c] cs
      | p :: _ => if isWordBoundary p c then cur.reverse :: wordsAux [c] cs
                  else wordsAux (c :: cur) cs

def splitWords (cs : List Char) : List (List Char) :=
  wordsAux [] cs

/-- Join a list of words with a separator (model of joining cased words). -/
def joinSep (sep : List α) : List (List α) → List α
  | [] => []
  | [w] => w
  | w :: ws => w ++ sep ++ joinSep sep ws

def capitalizeWord : List Char → List Char
  | [] => []
  | c :: cs => upperChar c :: cs.map lowerChar

/-- Model of `to_case(Case::Snake)`. -/
def toSnakeL (cs : List Char) : List Char :=
  joinSep ['_'] ((splitWords cs).map (·.map lowerChar))

/-- Model of `to_case(Case::Pascal)`. -/
def toPascalL (cs : List Char) : List Char :=
  joinSep [] ((splitWords cs).map capitalizeWord)

/-- Model of `to_case(Case::Lower)` (words joined with spaces). -/
def toLowerWordsL (cs : List Char) : List Char :=
  joinSep [' '] ((splitWords cs).map (·.map lowerChar))

/-! ## rewrite_names and the collapse regex -/

/-- Character-wise part of `rewrite_names`: `/` becomes `_`; `@`, `'`,
`+` are deleted; `:` becomes a space; `.` becomes `_`. -/
def rewriteChar (c : Char) : List Char :=
  if c = '/' then ['_']
  else if c = '@' || c = Char.ofNat 39 || c = '+' then []
  else if c = ':' then [' ']
  else if c = '.' then ['_']
  else [c]

/-- `rewrite_names`: the fixed `+1` / `-1` rewrite table, then the
character replacements. -/
def rewriteNames (cs : List Char) : List Char :=
  if cs = ['+', '1'] then "PlusOne".data
  else if cs = ['-', '1'] then "MinusOne".data
  else cs.flatMap rewriteChar

/-- Model of `Regex::new("[a-z]_[0-9]").replace_all(...)` where each
match `a_d` is replaced by `ad` (the underscore at index 1 is removed),
scanning left to right over non-overlapping matches. -/
def collapse : List Char → List Char
  | a :: b :: d :: rest =>
    if a.isLower && b = '_' && d.isDigit then a :: d :: collapse rest
    else a :: collapse (b :: d :: rest)
  | l => l

/-! ## Reserved words and validation -/

/-- The `is_restricted` keyword table from the source. -/
def keywords : List String :=
  ["as", "break", "const", "continue", "crate", "else", "enum", "extern", "false", "fn",
   "for", "if", "impl", "in", "let", "loop", "match", "mod", "move", "mut", "pub", "ref",
   "return", "self", "Self", "static", "struct", "super", "trait", "true", "type", "unsafe",
   "use", "where", "while", "async", "await", "dyn", "abstract", "become", "box", "do",
   "final", "macro", "override", "priv", "typeof", "unsized", "virtual", "yield", "try"]

def keywordsL : List (List Char) :=
  keywords.map String.data

/-- `is_restricted`, on character lists. -/
def isRestricted (cs : List Char) : Bool :=
  keywordsL.contains cs

/-- Failure modes of the sanitizer.  The Rust code panics; we model each
panic site as a distinct error.  `unwrapNone` is the anonymous
`Option::unwrap` panic on an empty string (it carries no input name);
`numericIdent` and `dotIdent` are the `assert_valid_ident` panics, whose
messages name the original raw string. -/
inductive SanErr
  | unwrapNone
  | numericIdent (original : String)
  | dotIdent (original : String)
deriving DecidableEq, Repr

/-- `assert_valid_ident(s, original)`. -/
def assertValidIdent (cs : List Char) (original : String) : Except SanErr Unit :=
  if (cs.head?.map Char.isDigit).getD false then .error (.numericIdent original)
  else if cs.contains '.' then .error (.dotIdent original)
  else .ok ()

/-- `sanitize`: rewrite, snake-case, collapse `[a-z]_[0-9]` matches,
append `_` to reserved words, then the `chars().next().unwrap()` step
(panics on an empty result), the leading-digit guard, and validation.
Rust's `char::is_numeric` is modelled for ASCII as `Char.isDigit`. -/
def sanitize (s : String) : Except SanErr String :=
  match (if isRestricted (collapse (toSnakeL (rewriteNames s.data)))
         then collapse (toSnakeL (rewriteNames s.data)) ++ ['_']
         else collapse (toSnakeL (rewriteNames s.data))) with
  | [] => .error .unwrapNone
  | c :: rest =>
    match assertValidIdent (if c.isDigit then '_' :: c :: rest else c :: rest) s with
    | .error e => .error e
    | .ok _ => .ok (String.mk (if c.isDigit then '_' :: c :: rest else c :: rest))

/-- `mir::Ident` (a sanitized identifier). -/
structure Ident where
  val : String
deriving DecidableEq, Repr

/-- `sanitize_ident`. -/
def sanitizeIdent (s : String) : Except SanErr Ident :=
  (sanitize s).map Ident.mk

/-- `sanitize_struct`: rewrite, Pascal-case, append `Struct` to reserved
words, then validation (no leading-digit guard and no collapse step). -/
def sanitizeStruct (s : String) : Except SanErr Ident :=
  match assertValidIdent (if isRestricted (toPascalL (rewriteNames s.data))
                          then toPascalL (rewriteNames s.data) ++ "Struct".data
                          else toPascalL (rewriteNames s.data)) s with
  | .error e => .error e
  | .ok _ => .ok (Ident.mk (String.mk (if isRestricted (toPascalL (rewriteNames s.data))
                                       then toPascalL (rewriteNames s.data) ++ "Struct".data
                                       else toPascalL (rewriteNames s.data))))

/-! ## The spec IR (hir)

The `hir` crate is part of this repository but outside `src/`; the data
shapes below are modelled from the spec (section 3, Spec IR) together
with the constructor patterns the source file matches on.  Payloads the
source never inspects (serialization options of `Integer`, `Date`,
`DateTime`, `Currency`, the documentation strings) are omitted or kept
as plain options. -/

inductive Ty
  | string
  | integer
  | float
  | boolean
  | array (inner : Ty)
  | model (name : String)
  | unit
  | any
  | date
  | dateTime
  | currency
deriving DecidableEq, Repr

/-- `hir::HirField` (further hir fields that the source ignores via
`..` are omitted). -/
structure HirField where
  ty : Ty
  optional : Bool
deriving DecidableEq, Repr

/-- `hir::Record`: `Struct`, `NewType`, `StrEnum` and `TypeAlias`. -/
inductive Record
  | struct (name : String) (fields : List (String × HirField)) (nullable : Bool)
  | newtype (name : String) (fields : List HirField)
  | enum (name : String) (variants : List String)
  | typeAlias (name : String) (field : HirField)
deriving DecidableEq, Repr

/-- Modelled from the spec: the spec document exposes
`get_record(name) -> Result<Record>`; lookup failure is a hard error
(unknown model reference).  The record store is an ordered association
list. -/
abbrev HirSpec := List (String × Record)

/-- Errors of the example-value synthesizer.  `unknownModel` is the
`get_record` failure; `emptyEnumPanic` is the `variants.first().unwrap()`
panic on a zero-variant enum; `sanitizePanic` propagates a sanitizer
panic from `to_rust_ident` / `to_rust_struct`; `outOfFuel` is the fuel
artifact of the shallow embedding (the Rust recursion has no bound). -/
inductive EErr
  | unknownModel (m : String)
  | emptyEnumPanic
  | sanitizePanic (e : SanErr)
  | outOfFuel
deriving DecidableEq, Repr

def getRecord : HirSpec → String → Except EErr Record
  | [], m => .error (.unknownModel m)
  | (k, r) :: rest, m => if k = m then .ok r else getRecord rest m

/-- Modelled from the spec: `hir` `Ty::is_reference_type` — a type is
borrow-eligible iff it has a non-owning representation (borrowed text
for strings, borrowed slices for arrays); see spec section 4.3. -/
def Ty.isReferenceType : Ty → Bool
  | .string => true
  | .array _ => true
  | _ => false

/-- `"Required"` suffix test on a model name (`model.ends_with("Required")`). -/
def endsRequired (m : String) : Bool :=
  "Required".data.isSuffixOf m.data

/-- The synthesized example expression: a structured model of the
`TokenStream` values `to_rust_example_value` builds with `quote!`.
`strRef s` is the borrowed literal `#s`; `strOwned s` is
`#s.to_owned()`; `refSlice` is `&[..]`; `vecOf` is `vec![..]`;
`someE` is `Some(..)`. -/
inductive Expr
  | strRef (s : String)
  | strOwned (s : String)
  | litInt
  | litFloat
  | litTrue
  | refSlice (e : Expr)
  | vecOf (e : Expr)
  | structLit (name : Ident) (fields : List (Ident × Expr))
  | newtypeLit (name : Ident) (args : List Expr)
  | enumVariant (model : Ident) (variant : Ident)
  | someE (e : Expr)
  | unitE
  | anyJson
  | dateNow
  | dateTimeNow
  | currencyLit
deriving Repr

/-- Fail-fast effectful map, the model of
`.collect::<Result<Vec<_>, _>>()` over a `map`. -/
def mapME (f : α → Except ε β) : List α → Except ε (List β)
  | [] => .ok []
  | a :: l => do
    let b ← f a
    let bs ← mapME f l
    .ok (b :: bs)

/-- The `Option` analogue of `mapME`. -/
def mapMO (f : α → Option β) : List α → Option (List β)
  | [] => some []
  | a :: l => do
    let b ← f a
    let bs ← mapMO f l
    some (b :: bs)

def toRustIdentE (s : String) : Except EErr Ident :=
  match sanitizeIdent s with
  | .ok i => .ok i
  | .error e => .error (.sanitizePanic e)

def toRustStructE (s : String) : Except EErr Ident :=
  match sanitizeStruct s with
  | .ok i => .ok i
  | .error e => .error (.sanitizePanic e)

/-- The per-field step of the `Record::Struct` branch: the recursive
synthesis uses the borrow flag `!not_ref` where
`not_ref = !force_ref || field.optional`, the field name passes through
`to_rust_ident`, and an optional field's value is wrapped in `Some`. -/
def structFieldE (rec : Ty → String → HirSpec → Bool → Except EErr Expr)
    (forceRef : Bool) (spec : HirSpec) (p : String × HirField) :
    Except EErr (Ident × Expr) := do
  let v ← rec p.2.ty p.1 spec (!(!forceRef || p.2.optional))
  let n ← toRustIdentE p.1
  .ok (n, if p.2.optional then Expr.someE v else v)

/-- The `Record::Enum` branch: `variants.first().unwrap()` panics on an
empty variant list, otherwise the first variant is selected. -/
def enumExample (m : String) : List String → Except EErr Expr
  | [] => .error .emptyEnumPanic
  | v :: _ => do
    let vid ← toRustStructE v
    let mid ← toRustStructE m
    .ok (.enumVariant mid vid)

/-- The `Ty::Model` branch, dispatching on the resolved record. -/
def recordExample (rec : Ty → String → HirSpec → Bool → Except EErr Expr)
    (m : String) (spec : HirSpec) : Record → Except EErr Expr
  | .struct _name fields _nullable => do
    let fs ← mapME (structFieldE rec (endsRequired m) spec) fields
    let mid ← toRustStructE m
    .ok (.structLit mid fs)
  | .newtype nm nfields => do
    let args ← mapME (fun f => rec f.ty nm spec false) nfields
    let nid ← toRustStructE nm
    .ok (.newtypeLit nid args)
  | .enum _nm variants => enumExample m variants
  | .typeAlias nm f => do
    let v ← rec f.ty nm spec (!endsRequired m || !f.optional)
    if f.optional then .ok (.someE v) else .ok v

/-- One unfolding of `to_rust_example_value`, parameterized by the
recursive callback (applied at one fuel less). -/
def exampleStep (rec : Ty → String → HirSpec → Bool → Except EErr Expr) :
    Ty → String → HirSpec → Bool → Except EErr Expr
  | .string, name, _, useRefValue =>
    let s := "your " ++ String.mk (toLowerWordsL name.data)
    if useRefValue then .ok (.strRef s) else .ok (.strOwned s)
  | .integer, _, _, _ => .ok .litInt
  | .float, _, _, _ => .ok .litFloat
  | .boolean, _, _, _ => .ok .litTrue
  | .array inner, name, spec, useRefValue => do
    let e ← rec inner name spec (if !inner.isReferenceType then false else useRefValue)
    if (if !inner.isReferenceType then false else useRefValue) then .ok (.refSlice e)
    else .ok (.vecOf e)
  | .model m, _, spec, _ => do
    let record ← getRecord spec m
    recordExample rec m spec record
  | .unit, _, _, _ => .ok .unitE
  | .any, _, _, _ => .ok .anyJson
  | .date, _, _, _ => .ok .dateNow
  | .dateTime, _, _, _ => .ok .dateTimeNow
  | .currency, _, _, _ => .ok .currencyLit

/-- `to_rust_example_value`, fuel-indexed.  The Rust function recurses
without a bound; every claim about it is stated with enough fuel. -/
def toRustExampleValue : Nat → Ty → String → HirSpec → Bool → Except EErr Expr
  | 0, _, _, _, _ => .error .outOfFuel
  | fuel + 1, ty, name, spec, useRefValue =>
    exampleStep (toRustExampleValue fuel) ty name spec useRefValue

/-! ### Well-formedness of a spec document

Decidable conditions under which the synthesizer is total: every model
reference of a record resolves, every name that reaches the sanitizer
sanitizes without a panic, and every referenced enum has a first
variant.  Acyclicity is expressed by a rank function that strictly
decreases across a `get_record` step. -/

/-- The model names a type references. -/
def Ty.models : Ty → List String
  | .array inner => inner.models
  | .model m => [m]
  | _ => []

/-- The model names a record's fields reference. -/
def Record.models : Record → List String
  | .struct _ fields _ => fields.flatMap (fun p => p.2.ty.models)
  | .newtype _ fs => fs.flatMap (fun f => f.ty.models)
  | .enum _ _ => []
  | .typeAlias _ f => f.ty.models

/-- Per-record conditions for synthesis to succeed on the record: its
model references resolve, the names it routes through the sanitizer
sanitize without a panic, and a referenced enum has a first variant. -/
def recordOk (spec : HirSpec) (m : String) : Record → Bool
  | .struct nm fields nb =>
    (Record.struct nm fields nb).models.all (fun m2 => (getRecord spec m2).isOk) &&
    fields.all (fun p => (sanitize p.1).isOk) && (sanitizeStruct m).isOk
  | .newtype nm fs =>
    (Record.newtype nm fs).models.all (fun m2 => (getRecord spec m2).isOk) &&
    (sanitizeStruct nm).isOk
  | .enum _ variants =>
    (match variants with
     | [] => false
     | v :: _ => (sanitizeStruct v).isOk && (sanitizeStruct m).isOk)
  | .typeAlias nm f =>
    (Record.typeAlias nm f).models.all (fun m2 => (getRecord spec m2).isOk)

def specOk (spec : HirSpec) : Bool :=
  spec.all (fun p => recordOk spec p.1 p.2)

/-- Acyclicity of the model-reference graph: some rank strictly drops
from a record's name to every model its fields reference. -/
def RanksDescend (spec : HirSpec) (rank : String → Nat) : Prop :=
  ∀ m r, getRecord spec m = .ok r → ∀ m2 ∈ r.models, rank m2 < rank m

/-! ## The emission IR (mir) and its renderers

The `mir` crate is part of this repository but outside `src/`; the data
shapes below are modelled from the spec (section 3, Emission IR)
together with the field destructurings in the source.  Rendered code is
a `List String` of atomic tokens; `quote!` interpolation is token-list
concatenation.  The `syn` parses of annotation strings and lifetime
names are modelled as token passthrough (treating those opaque
fragments as already valid). -/

inductive Visibility
  | public
  | private_
  | crate
deriving DecidableEq, Repr

def Visibility.toRustCode : Visibility → List String
  | .public => ["pub"]
  | .private_ => []
  | .crate => ["pub", "(", "crate", ")"]

/-- `pub_tok`. -/
def pubTok (public : Bool) : List String :=
  if public then ["pub"] else []

def asyncTok (b : Bool) : List String :=
  if b then ["async"] else []

/-- `Option<Doc>::to_rust_code`: nothing, or a trimmed doc attribute. -/
def docTokens : Option String → List String
  | none => []
  | some d => ["#", "[", "doc", "=", d.trim, "]"]

/-- Join token groups with a comma token (`#(#args),*`). -/
def joinComma (l : List (List String)) : List String :=
  joinSep [","] l

/-- `mir::Function<TokenStream>` argument: `a.name.unwrap_ident()` plus
the type tokens (the name is modelled as already being an ident). -/
structure FnArg where
  name : String
  ty : List String
deriving DecidableEq, Repr

/-- `mir::Function<TokenStream>`. -/
structure Function where
  name : String
  args : List FnArg
  body : List String
  doc : Option String
  async_ : Bool
  annotations : List String
  ret : List String
  public : Bool
  generic : List String
deriving DecidableEq, Repr

def argTokens (a : FnArg) : List String :=
  [a.name, ":"] ++ a.ty

def annTokens (anns : List String) : List String :=
  anns.flatMap (fun a => ["#", "[", a, "]"])

/-- `Function::to_rust_code` (the free-function renderer): annotations,
doc, visibility, `async`, name, arguments, and a return-type arrow that
is omitted when `ret` is the empty token stream. -/
def Function.toRustCode (f : Function) : List String :=
  annTokens f.annotations ++ docTokens f.doc ++ pubTok f.public ++
  asyncTok f.async_ ++ ["fn", f.name, "("] ++
  joinComma (f.args.map argTokens) ++ [")"] ++
  (if f.ret.isEmpty then [] else "->" :: f.ret) ++
  ["\x7b"] ++ f.body ++ ["\x7d"]

/-- `codegen_function(func, self_arg)` (the method renderer used inside
`Class::to_rust_code`): note the unconditional `-> #ret`. -/
def codegenFunction (f : Function) (selfArg : List String) : List String :=
  pubTok f.public ++ asyncTok f.async_ ++ ["fn", f.name, "("] ++
  selfArg ++ joinComma (f.args.map argTokens) ++ [")", "->"] ++ f.ret ++
  ["\x7b"] ++ f.body ++ ["\x7d"]

/-- `mir::Field<TokenStream>` (the parts `Class::to_rust_code` reads). -/
structure Field where
  name : String
  ty : List String
  visibility : Visibility
  optional : Bool
  doc : Option String
  decorators : List (List String)
deriving DecidableEq, Repr

/-- `mir::Class<TokenStream>`. -/
structure Class where
  name : String
  doc : Option String
  instance_fields : List Field
  instance_methods : List Function
  mut_self_instance_methods : List Function
  class_methods : List Function
  public : Bool
  lifetimes : List String
  decorators : List (List String)
deriving DecidableEq, Repr

def lifetimeTokens (ls : List String) : List String :=
  if ls.isEmpty then [] else ["<"] ++ joinComma (ls.map (fun l => [l])) ++ [">"]

/-- `Class::to_rust_code`.  Field names pass through `to_rust_ident`,
whose panic is modelled as the error; instance methods get the implicit
`self ,`, mutating instance methods get `mut self ,`, class methods get
no implicit first argument. -/
def Class.toRustCode (c : Class) : Except SanErr (List String) := do
  let fields ← mapME (fun f => do
    let n ← sanitizeIdent f.name
    .ok (Visibility.toRustCode f.visibility ++ [n.val, ":"] ++ f.ty)) c.instance_fields
  let instM := c.instance_methods.flatMap (fun m => codegenFunction m ["self", ","])
  let mutM := c.mut_self_instance_methods.flatMap
    (fun m => codegenFunction m ["mut", "self", ","])
  let clsM := c.class_methods.flatMap (fun m => codegenFunction m [])
  let lifeT := lifetimeTokens c.lifetimes
  .ok (docTokens c.doc ++ c.decorators.flatMap id ++ pubTok c.public ++
    ["struct", c.name] ++ lifeT ++ ["\x7b"] ++
    fields.flatMap (fun f => f ++ [","]) ++ ["\x7d"] ++
    ["impl"] ++ lifeT ++ [c.name] ++ lifeT ++ ["\x7b"] ++
    instM ++ mutM ++ clsM ++ ["\x7d"])

/-! ### Imports -/

structure ImportItem where
  name : String
  alias_ : Option String
deriving DecidableEq, Repr

structure Import where
  path : String
  alias_ : Option String
  imports : List ImportItem
  vis : Visibility
  feature : Option String
deriving DecidableEq, Repr

/-- `path.ends_with('*')` on the character list. -/
def endsWithStar (s : String) : Bool :=
  s.data.getLast? == some '*'

/-- `&path[..path.len() - 3]` (the path minus its last three
characters; paths are ASCII here, so bytes and characters agree). -/
def dropRight3 (s : String) : String :=
  String.mk (s.data.take (s.data.length - 3))

/-- Split a character list at each `::` occurrence. -/
def splitPathSegs : List Char → List (List Char)
  | [] => [[]]
  | ':' :: ':' :: rest => [] :: splitPathSegs rest
  | c :: rest =>
    match splitPathSegs rest with
    | [] => [[c]]
    | seg :: segs => (c :: seg) :: segs

/-- Model of `syn::parse_str::<syn::Path>`: the path must be a nonempty
`::`-separated sequence of nonempty segments; the token list alternates
segments and `::`. -/
def parsePath (s : String) : Option (List String) :=
  let segs := splitPathSegs s.data
  if s.data.isEmpty || segs.any (·.isEmpty) then none
  else some (joinSep ["::"] (segs.map (fun seg => [String.mk seg])))

def ImportItem.toRustCode (i : ImportItem) : Option (List String) :=
  match i.alias_ with
  | some a => do
    let p ← parsePath i.name
    some (p ++ ["as", a])
  | none =>
    if i.name = "*" then some ["*"]
    else parsePath i.name

def featureTokens : Option String → List String
  | none => []
  | some f => ["#", "[", "cfg", "(", "feature", "=", f, ")", "]"]

/-- `Import::to_rust_code`.  A path ending in `*` is rendered as a
wildcard import of the path minus its last three characters (the
`::*`), with no visibility qualifier; `none` models the Rust panics
(slice out of range on paths shorter than three characters, and
`syn` parse failures). -/
def Import.toRustCode (i : Import) : Option (List String) := do
  let inner ←
    (if endsWithStar i.path then do
      if i.path.data.length < 3 then none
      else do
        let p ← parsePath (dropRight3 i.path)
        some (["use"] ++ p ++ ["::", "*", ";"])
    else do
      let p ← parsePath i.path
      let vis := Visibility.toRustCode i.vis
      match i.alias_ with
      | some a => some (vis ++ ["use"] ++ p ++ ["as", a, ";"])
      | none =>
        if i.imports.isEmpty then some (vis ++ ["use"] ++ p ++ [";"])
        else do
          let items ← mapMO ImportItem.toRustCode i.imports
          some (vis ++ ["use"] ++ p ++ ["::", "\x7b"] ++ joinComma items ++ ["\x7d", ";"]))
  some (featureTokens i.feature ++ inner)

/-- `serde_rename(one, two)`: an annotation carrying the original name
iff it differs from the sanitized identifier. -/
def serdeRename (one : String) (two : Ident) : List String :=
  if one ≠ two.val then ["#", "[", "serde", "(", "rename", "=", one, ")", "]"]
  else []

/-! ## The reference-type classifier (openapiv3 model)

The `openapiv3` schema type is modelled by the shapes
`is_referenceable` dispatches on; the `SchemaData` payload it never
reads is omitted and `SchemaKind::Type(t)` is flattened into the
constructors.  `resolve` performs one level of reference lookup in the
spec document's schema components and is `none` on a dangling
reference (the Rust resolve panics there). -/

/-- `openapiv3::ReferenceOr`. -/
inductive RefOr (α : Type)
  | reference (name : String)
  | item (x : α)

inductive Schema
  | typeString
  | typeNumber
  | typeInteger
  | typeBoolean
  | typeObject
  | typeArray (items : Option (RefOr Schema))
  | allOf (branches : List (RefOr Schema))
  | oneOf (branches : List (RefOr Schema))
  | anyOf (branches : List (RefOr Schema))
  | notSchema (inner : RefOr Schema)
  | anySchema

/-- The spec document, reduced to its schema components (the only part
reference resolution reads). -/
structure OpenAPI where
  schemas : List (String × Schema)

/-- One level of reference resolution against the spec document;
`none` models the panic on a dangling reference. -/
def resolveRef (r : RefOr Schema) (spec : OpenAPI) : Option Schema :=
  match r with
  | .item s => some s
  | .reference name => spec.schemas.lookup name

/-- Modelled from the spec: `ln_core::extractor::is_primitive` (the
`ln_core` crate is outside `src/`) — a schema is primitive iff it is a
string, number or boolean leaf (spec section 4.2; integers count as
numbers). -/
def isPrimitive (s : Schema) (_spec : OpenAPI) : Bool :=
  match s with
  | .typeString => true
  | .typeNumber => true
  | .typeInteger => true
  | .typeBoolean => true
  | _ => false

/-- `is_referenceable(schema, spec)`.  `none` models the panic on a
dangling reference inside `resolve`. -/
def isReferenceable (schema : Schema) (spec : OpenAPI) : Option Bool :=
  match schema with
  | .typeString => some true
  | .typeArray (some inner) => (resolveRef inner spec).map (fun s => isPrimitive s spec)
  | .typeArray none => some false
  | .allOf branches =>
    match branches with
    | [b] => (resolveRef b spec).map (fun s => isPrimitive s spec)
    | _ => some false
  | _ => some false

/-- The schema shapes the claim calls "every other schema shape":
not a string leaf, not an array with an item schema, not a
single-branch `allOf`. -/
def otherShape (s : Schema) : Bool :=
  match s with
  | .typeString => false
  | .typeArray (some _) => false
  | .allOf [_] => false
  | _ => true

/-! ## Lemmas: character provenance through the casing pipeline -/

theorem lowerChar_cases (c : Char) : lowerChar c = c ∨ (lowerChar c).isLower = true := by
  unfold lowerChar
  split <;> first | (left; rfl) | (right; decide)

theorem upperChar_cases (c : Char) : upperChar c = c ∨ (upperChar c).isUpper = true := by
  unfold upperChar
  split <;> first | (left; rfl) | (right; decide)

theorem lowerChar_safe {c d : Char} (hcd : c ≠ d) (hd : d.isLower = false) :
    lowerChar c ≠ d := by
  rcases lowerChar_cases c with h | h
  · rw [h]; exact hcd
  · intro he; rw [he, hd] at h; cases h

theorem upperChar_safe {c d : Char} (hcd : c ≠ d) (hd : d.isUpper = false) :
    upperChar c ≠ d := by
  rcases upperChar_cases c with h | h
  · rw [h]; exact hcd
  · intro he; rw [he, hd] at h; cases h

theorem wordsAux_nil_eq (cur : List Char) :
    wordsAux cur [] = if cur.isEmpty then [] else [cur.reverse] := rfl

theorem wordsAux_cons_nilcur_eq (c : Char) (cs : List Char) :
    wordsAux [] (c :: cs) =
      if isDelimChar c then wordsAux [] cs else wordsAux [c] cs := by
  rw [wordsAux]; split <;> simp

theorem wordsAux_cons_conscur_eq (p c : Char) (t cs : List Char) :
    wordsAux (p :: t) (c :: cs) =
      if isDelimChar c then (p :: t).reverse :: wordsAux [] cs
      else if isWordBoundary p c then (p :: t).reverse :: wordsAux [c] cs
      else wordsAux (c :: p :: t) cs := by
  rw [wordsAux]; split <;> simp

theorem wordsAux_chars :
    ∀ (cs cur w : List Char), w ∈ wordsAux cur cs → ∀ x ∈ w, x ∈ cur ∨ x ∈ cs := by
  intro cs
  induction cs with
  | nil =>
    intro cur w hw x hx
    rw [wordsAux_nil_eq] at hw
    split at hw
    · cases hw
    · rcases List.mem_singleton.mp hw with rfl
      left; exact List.mem_reverse.mp hx
  | cons c cs ih =>
    intro cur w hw x hx
    cases cur with
    | nil =>
      rw [wordsAux_cons_nilcur_eq] at hw
      split at hw
      · rcases ih [] w hw x hx with h | h
        · cases h
        · right; exact List.mem_cons_of_mem _ h
      · rcases ih [c] w hw x hx with h | h
        · rcases List.mem_singleton.mp h with rfl
          right; exact List.mem_cons_self _ _
        · right; exact List.mem_cons_of_mem _ h
    | cons p t =>
      rw [wordsAux_cons_conscur_eq] at hw
      split at hw
      · rcases List.mem_cons.mp hw with rfl | hw
        · left; exact List.mem_reverse.mp hx
        · rcases ih [] w hw x hx with h | h
          · cases h
          · right; exact List.mem_cons_of_mem _ h
      · split at hw
        · rcases List.mem_cons.mp hw with rfl | hw
          · left; exact List.mem_reverse.mp hx
          · rcases ih [c] w hw x hx with h | h
            · rcases List.mem_singleton.mp h with rfl
              right; exact List.mem_cons_self _ _
            · right; exact List.mem_cons_of_mem _ h
        · rcases ih (c :: p :: t) w hw x hx with h | h
          · rcases List.mem_cons.mp h with rfl | h
            · right; exact List.mem_cons_self _ _
            · left; exact h
          · right; exact List.mem_cons_of_mem _ h

theorem splitWords_chars {cs w : List Char} (hw : w ∈ splitWords cs) :
    ∀ x ∈ w, x ∈ cs := by
  intro x hx
  rcases wordsAux_chars cs [] w hw x hx with h | h
  · cases h
  · exact h

theorem joinSep_chars {α : Type} :
    ∀ (sep : List α) (ws : List (List α)) (x : α),
      x ∈ joinSep sep ws → x ∈ sep ∨ ∃ w ∈ ws, x ∈ w := by
  intro sep ws
  induction ws with
  | nil => intro x hx; cases hx
  | cons w ws ih =>
    intro x hx
    cases ws with
    | nil =>
      right; exact ⟨w, List.mem_cons_self _ _, by simpa [joinSep] using hx⟩
    | cons w2 ws2 =>
      rw [show joinSep sep (w :: w2 :: ws2) = w ++ sep ++ joinSep sep (w2 :: ws2) from rfl] at hx
      rcases List.mem_append.mp hx with h | h
      · rcases List.mem_append.mp h with h | h
        · right; exact ⟨w, List.mem_cons_self _ _, h⟩
        · left; exact h
      · rcases ih x h with h | ⟨w3, hw3, hx3⟩
        · left; exact h
        · right; exact ⟨w3, List.mem_cons_of_mem _ hw3, hx3⟩

theorem collapse_subset : ∀ (l : List Char), ∀ x ∈ collapse l, x ∈ l := by
  intro l
  induction l using collapse.induct with
  | case1 a b d rest h ih =>
    intro x hx
    rw [collapse, if_pos h] at hx
    simp only [List.mem_cons] at hx ⊢
    rcases hx with rfl | rfl | hx
    · tauto
    · tauto
    · have := ih x hx; tauto
  | case2 a b d rest h ih =>
    intro x hx
    rw [collapse, if_neg h] at hx
    simp only [List.mem_cons] at hx ⊢
    rcases hx with rfl | hx
    · tauto
    · have := ih x hx; simp only [List.mem_cons] at this; tauto
  | case3 l h =>
    intro x hx
    match l, h with
    | [], _ => simp [collapse] at hx
    | [a], _ => simp [collapse] at hx; simp [hx]
    | [a, b], _ => simp [collapse] at hx; simp [hx]
    | a :: b :: d :: rest, h => exact absurd rfl (h a b d rest)

theorem rewriteChar_safe (c x : Char) (hx : x ∈ rewriteChar c) : x ≠ '.' ∧ x ≠ '/' := by
  unfold rewriteChar at hx
  split_ifs at hx with h1 h2 h3 h4
  · simp only [List.mem_singleton] at hx; subst hx; exact ⟨by decide, by decide⟩
  · cases hx
  · simp only [List.mem_singleton] at hx; subst hx; exact ⟨by decide, by decide⟩
  · simp only [List.mem_singleton] at hx; subst hx; exact ⟨by decide, by decide⟩
  · simp only [List.mem_singleton] at hx; subst hx; exact ⟨h4, h1⟩

theorem rewriteNames_safe (cs : List Char) (x : Char) (hx : x ∈ rewriteNames cs) :
    x ≠ '.' ∧ x ≠ '/' := by
  unfold rewriteNames at hx
  split_ifs at hx with h1 h2
  · simp only [show "PlusOne".data = ['P', 'l', 'u', 's', 'O', 'n', 'e'] from rfl,
      List.mem_cons, List.not_mem_nil, or_false] at hx
    rcases hx with rfl | rfl | rfl | rfl | rfl | rfl | rfl <;> exact ⟨by decide, by decide⟩
  · simp only [show "MinusOne".data = ['M', 'i', 'n', 'u', 's', 'O', 'n', 'e'] from rfl,
      List.mem_cons, List.not_mem_nil, or_false] at hx
    rcases hx with rfl | rfl | rfl | rfl | rfl | rfl | rfl | rfl <;> exact ⟨by decide, by decide⟩
  · rw [List.mem_flatMap] at hx
    obtain ⟨c, _, hc⟩ := hx
    exact rewriteChar_safe c x hc

theorem toSnakeL_safe {cs : List Char} (hcs : ∀ c ∈ cs, c ≠ '.' ∧ c ≠ '/') :
    ∀ x ∈ toSnakeL cs, x ≠ '.' ∧ x ≠ '/' := by
  intro x hx
  rcases joinSep_chars ['_'] _ x hx with h | ⟨w, hw, hxw⟩
  · simp only [List.mem_singleton] at h; subst h; exact ⟨by decide, by decide⟩
  · rw [List.mem_map] at hw
    obtain ⟨w0, hw0, rfl⟩ := hw
    rw [List.mem_map] at hxw
    obtain ⟨c, hc, rfl⟩ := hxw
    have hmem := splitWords_chars hw0 c hc
    exact ⟨lowerChar_safe (hcs c hmem).1 (by decide),
           lowerChar_safe (hcs c hmem).2 (by decide)⟩

theorem capitalizeWord_chars {w : List Char} {x : Char} (hx : x ∈ capitalizeWord w) :
    ∃ c ∈ w, x = upperChar c ∨ x = lowerChar c := by
  cases w with
  | nil => cases hx
  | cons c0 rest =>
    rcases List.mem_cons.mp hx with rfl | hx
    · exact ⟨c0, List.mem_cons_self _ _, Or.inl rfl⟩
    · rw [List.mem_map] at hx
      obtain ⟨c, hc, rfl⟩ := hx
      exact ⟨c, List.mem_cons_of_mem _ hc, Or.inr rfl⟩

theorem toPascalL_safe {cs : List Char} (hcs : ∀ c ∈ cs, c ≠ '.' ∧ c ≠ '/') :
    ∀ x ∈ toPascalL cs, x ≠ '.' ∧ x ≠ '/' := by
  intro x hx
  rcases joinSep_chars [] _ x hx with h | ⟨w, hw, hxw⟩
  · cases h
  · rw [List.mem_map] at hw
    obtain ⟨w0, hw0, rfl⟩ := hw
    obtain ⟨c, hc, hcase⟩ := capitalizeWord_chars hxw
    have hmem := splitWords_chars hw0 c hc
    rcases hcase with rfl | rfl
    · exact ⟨upperChar_safe (hcs c hmem).1 (by decide),
             upperChar_safe (hcs c hmem).2 (by decide)⟩
    · exact ⟨lowerChar_safe (hcs c hmem).1 (by decide),
             lowerChar_safe (hcs c hmem).2 (by decide)⟩

/-- The characters of the pre-guard sanitizer pipeline are never `.` or
`/`. -/
theorem sanitizeBase_safe (s : String) :
    ∀ x ∈ collapse (toSnakeL (rewriteNames s.data)), x ≠ '.' ∧ x ≠ '/' := by
  intro x hx
  exact toSnakeL_safe (fun c hc => rewriteNames_safe _ c hc) x (collapse_subset _ x hx)

/-! ## Lemmas: the keyword table -/

theorem keywords_facts :
    (keywordsL.all fun w =>
      !w.isEmpty && (w.head? != some '_') &&
      !((w.head?.map Char.isDigit).getD false) && (w.getLast? != some '_')) = true := by
  decide

theorem mem_keywordsL_facts {w : List Char} (hw : w ∈ keywordsL) :
    w.isEmpty = false ∧ w.head? ≠ some '_' ∧
    (w.head?.map Char.isDigit).getD false = false ∧ w.getLast? ≠ some '_' := by
  have h := (List.all_eq_true.mp keywords_facts) w hw
  simp only [Bool.and_eq_true, Bool.not_eq_true', bne_iff_ne] at h
  exact ⟨h.1.1.1, h.1.1.2, h.1.2, h.2⟩

theorem isRestricted_mem {cs : List Char} (h : isRestricted cs = true) : cs ∈ keywordsL := by
  simpa [isRestricted] using h

theorem isRestricted_append_underscore (cs : List Char) :
    isRestricted (cs ++ ['_']) = false := by
  by_contra hc
  have h := isRestricted_mem (Bool.of_not_eq_false hc)
  have hfacts := mem_keywordsL_facts h
  exact hfacts.2.2.2 (List.getLast?_concat cs)

theorem isRestricted_cons_underscore (cs : List Char) :
    isRestricted ('_' :: cs) = false := by
  by_contra hc
  have h := isRestricted_mem (Bool.of_not_eq_false hc)
  exact (mem_keywordsL_facts h).2.1 rfl

theorem isRestricted_head_not_digit {c : Char} {rest : List Char}
    (h : isRestricted (c :: rest) = true) : c.isDigit = false := by
  have hfacts := mem_keywordsL_facts (isRestricted_mem h)
  simpa using hfacts.2.2.1

/-! ## The sanitizer claims -/

/-- Claim C5: for every raw string for which sanitization does not raise
a fatal error, the result of `sanitize_ident` contains no path separator
`/`, contains no `.`, does not start with a digit, and is not a bare
reserved word of the keyword table. -/
theorem claim_C5_thm (s r : String) (h : sanitize s = .ok r) :
    '/' ∉ r.data ∧ '.' ∉ r.data ∧
    (r.data.head?.map Char.isDigit).getD false = false ∧
    isRestricted r.data = false := by
  unfold sanitize at h
  split at h
  · cases h
  next c rest heq =>
    have hsub : ∀ x ∈ c :: rest, x ≠ '.' ∧ x ≠ '/' := by
      intro x hx
      by_cases hres : isRestricted (collapse (toSnakeL (rewriteNames s.data))) = true
      · rw [if_pos hres] at heq
        rw [← heq] at hx
        rcases List.mem_append.mp hx with h1 | h1
        · exact sanitizeBase_safe s x h1
        · rcases List.mem_singleton.mp h1 with rfl
          exact ⟨by decide, by decide⟩
      · rw [if_neg hres] at heq
        rw [← heq] at hx
        exact sanitizeBase_safe s x hx
    split at h
    · cases h
    · injection h with h
      subst h
      refine ⟨?_, ?_, ?_, ?_⟩
      · intro hx
        split_ifs at hx with hd
        · rcases List.mem_cons.mp hx with h1 | h1
          · cases h1
          · exact (hsub _ h1).2 rfl
        · exact (hsub _ hx).2 rfl
      · intro hx
        split_ifs at hx with hd
        · rcases List.mem_cons.mp hx with h1 | h1
          · cases h1
          · exact (hsub _ h1).1 rfl
        · exact (hsub _ hx).1 rfl
      · split_ifs with hd
        · rfl
        · show (Option.map Char.isDigit (c :: rest).head?).getD false = false
          simpa using hd
      · split_ifs with hd
        · exact isRestricted_cons_underscore _
        · by_cases hres : isRestricted (collapse (toSnakeL (rewriteNames s.data))) = true
          · rw [if_pos hres] at heq
            show isRestricted (c :: rest) = false
            rw [← heq]
            exact isRestricted_append_underscore _
          · rw [if_neg hres] at heq
            show isRestricted (c :: rest) = false
            rw [← heq]
            simpa using hres

/-- Claim C5 witness: `sanitize "meta/root"` succeeds with
`"meta_root"`, which satisfies all four validity properties. -/
theorem claim_C5_witness :
    '/' ∉ "meta_root".data ∧ '.' ∉ "meta_root".data ∧
    ("meta_root".data.head?.map Char.isDigit).getD false = false ∧
    isRestricted "meta_root".data = false :=
  claim_C5_thm "meta/root" "meta_root" (by decide)

/-- Claim C8: `sanitize_ident "get-phone-checks-v0.1"` equals
`"get_phone_checks_v0_1"`; the dot is rewritten to an underscore before
casing; the casing step splits the digit off `v0` so the snake form is
`get_phone_checks_v_0_1`; and the collapse step removes the underscore
exactly in the lowercase-letter/underscore/digit pattern, so `v_0`
collapses to `v0` while the digit pair `0_1` keeps its underscore. -/
theorem claim_C8_thm :
    sanitize "get-phone-checks-v0.1" = .ok "get_phone_checks_v0_1" ∧
    rewriteNames "get-phone-checks-v0.1".data = "get-phone-checks-v0_1".data ∧
    toSnakeL "get-phone-checks-v0_1".data = "get_phone_checks_v_0_1".data ∧
    collapse "v_0".data = "v0".data ∧
    collapse "0_1".data = "0_1".data := by
  refine ⟨?_, ?_, ?_, ?_, ?_⟩ <;> decide

/-- Claim C4 (counterexample): for the input `"@"`, whose sanitized form
is the empty string, `sanitize_ident` fails with the anonymous
`Option::unwrap` panic, which does not name the original input, and
`sanitize_struct` raises no error at all, silently returning the empty
identifier. -/
theorem claim_C4_counterexample :
    sanitize "@" = .error SanErr.unwrapNone ∧
    sanitizeStruct "@" = .ok (Ident.mk "") := by
  constructor <;> decide

/-- Claim C4 (amended): when `assert_valid_ident` fires, its fatal error
does name the offending original raw string, and for `sanitize_struct`
the only such error is the leading-digit one; but the empty-result case
is not covered: `sanitize_ident`'s only failure mode is the anonymous
`unwrap` panic on an empty sanitized form (which does not name the
input), and `sanitize_struct` does not fail on an empty sanitized
form at all. -/
theorem claim_C4_amended_thm (s : String) (e : SanErr) :
    (sanitize s = .error e → e = .unwrapNone) ∧
    (sanitizeStruct s = .error e → e = .numericIdent s) := by
  constructor
  · intro h
    unfold sanitize at h
    split at h
    · injection h with h
      exact h.symm
    next c rest heq =>
      have hsub : ∀ x ∈ c :: rest, x ≠ '.' ∧ x ≠ '/' := by
        intro x hx
        by_cases hres : isRestricted (collapse (toSnakeL (rewriteNames s.data))) = true
        · rw [if_pos hres] at heq
          rw [← heq] at hx
          rcases List.mem_append.mp hx with h1 | h1
          · exact sanitizeBase_safe s x h1
          · rcases List.mem_singleton.mp h1 with rfl
            exact ⟨by decide, by decide⟩
        · rw [if_neg hres] at heq
          rw [← heq] at hx
          exact sanitizeBase_safe s x hx
      split at h
      next e2 hass =>
        exfalso
        by_cases hd : c.isDigit = true
        · rw [if_pos hd] at hass
          unfold assertValidIdent at hass
          split_ifs at hass with h1 h2
          · simp at h1
          · have hdot : '.' ∈ '_' :: c :: rest := by simpa using h2
            rcases List.mem_cons.mp hdot with h3 | h3
            · cases h3
            · exact (hsub _ h3).1 rfl
        · rw [if_neg hd] at hass
          unfold assertValidIdent at hass
          split_ifs at hass with h1 h2
          · simp only [List.head?_cons, Option.map_some, Option.getD_some] at h1
            exact hd h1
          · have hdot : '.' ∈ c :: rest := by simpa using h2
            exact (hsub _ hdot).1 rfl
      · cases h
  · intro h
    unfold sanitizeStruct at h
    set cs := (if isRestricted (toPascalL (rewriteNames s.data))
               then toPascalL (rewriteNames s.data) ++ "Struct".data
               else toPascalL (rewriteNames s.data)) with hcs
    split at h
    next e2 hass =>
      injection h with h
      unfold assertValidIdent at hass
      split_ifs at hass with h1 h2
      · injection hass with hass2
        rw [← h, ← hass2]
      · exfalso
        have hdot : '.' ∈ cs := by simpa using h2
        rw [hcs] at hdot
        have hpas := toPascalL_safe
          (fun cc hcc => rewriteNames_safe s.data cc hcc)
        split_ifs at hdot with hres
        · rcases List.mem_append.mp hdot with h3 | h3
          · exact (hpas _ h3).1 rfl
          · revert h3; decide
        · exact (hpas _ hdot).1 rfl
    · cases h

/-- Claim C4 witness: the amended theorem applied at `"@"` (empty
sanitized form, anonymous panic) and at `"1 2"` (leading-digit struct
form, error naming the original). -/
theorem claim_C4_witness :
    SanErr.unwrapNone = SanErr.unwrapNone ∧
    SanErr.numericIdent "1 2" = SanErr.numericIdent "1 2" :=
  ⟨(claim_C4_amended_thm "@" SanErr.unwrapNone).1 (by decide),
   (claim_C4_amended_thm "1 2" (SanErr.numericIdent "1 2")).2 (by decide)⟩

/-! ## The reference-type classifier claim -/

/-- Claim C6: `is_referenceable` returns true iff the schema is a plain
string leaf, or an array whose resolved item schema is primitive, or an
`allOf` with exactly one branch whose resolved branch is primitive; for
every other schema shape it returns false.  A dangling reference (a
panic in the Rust code) is the `none` case and is outside both sides. -/
theorem claim_C6_thm (schema : Schema) (spec : OpenAPI) :
    (isReferenceable schema spec = some true ↔
      (schema = .typeString ∨
       (∃ inner t, schema = .typeArray (some inner) ∧ resolveRef inner spec = some t ∧
          isPrimitive t spec = true) ∨
       (∃ b t, schema = .allOf [b] ∧ resolveRef b spec = some t ∧
          isPrimitive t spec = true))) ∧
    (otherShape schema = true → isReferenceable schema spec = some false) := by
  refine ⟨⟨?_, ?_⟩, ?_⟩
  · intro h
    cases schema with
    | typeString => exact Or.inl rfl
    | typeArray items =>
      cases items with
      | none => simp [isReferenceable] at h
      | some inner =>
        refine Or.inr (Or.inl ?_)
        simp only [isReferenceable] at h
        cases hres : resolveRef inner spec with
        | none => rw [hres] at h; cases h
        | some t =>
          rw [hres] at h
          simp only [Option.map_some', Option.some_inj] at h
          exact ⟨inner, t, rfl, hres, h⟩
    | allOf branches =>
      cases branches with
      | nil => simp [isReferenceable] at h
      | cons b1 bs =>
        cases bs with
        | nil =>
          refine Or.inr (Or.inr ?_)
          simp only [isReferenceable] at h
          cases hres : resolveRef b1 spec with
          | none => rw [hres] at h; cases h
          | some t =>
            rw [hres] at h
            simp only [Option.map_some', Option.some_inj] at h
            exact ⟨b1, t, rfl, hres, h⟩
        | cons b2 bs2 => simp [isReferenceable] at h
    | typeNumber => simp [isReferenceable] at h
    | typeInteger => simp [isReferenceable] at h
    | typeBoolean => simp [isReferenceable] at h
    | typeObject => simp [isReferenceable] at h
    | oneOf branches => simp [isReferenceable] at h
    | anyOf branches => simp [isReferenceable] at h
    | notSchema inner => simp [isReferenceable] at h
    | anySchema => simp [isReferenceable] at h
  · intro h
    rcases h with rfl | ⟨inner, t, rfl, hres, hprim⟩ | ⟨b, t, rfl, hres, hprim⟩
    · rfl
    · simp [isReferenceable, hres, hprim]
    · simp [isReferenceable, hres, hprim]
  · intro h
    cases schema with
    | typeString => simp [otherShape] at h
    | typeArray items =>
      cases items with
      | none => rfl
      | some inner => simp [otherShape] at h
    | allOf branches =>
      cases branches with
      | nil => rfl
      | cons b1 bs =>
        cases bs with
        | nil => simp [otherShape] at h
        | cons b2 bs2 => rfl
    | typeNumber => rfl
    | typeInteger => rfl
    | typeBoolean => rfl
    | typeObject => rfl
    | oneOf branches => rfl
    | anyOf branches => rfl
    | notSchema inner => rfl
    | anySchema => rfl

/-- Claim C6 witness: the theorem applied to a plain string schema, an
array of strings, an array of object items, and an object schema in the
empty spec document. -/
theorem claim_C6_witness :
    isReferenceable Schema.typeString ⟨[]⟩ = some true ∧
    isReferenceable (Schema.typeArray (some (RefOr.item Schema.typeString))) ⟨[]⟩ = some true ∧
    isReferenceable (Schema.typeArray (some (RefOr.item Schema.typeObject))) ⟨[]⟩ = some false ∧
    isReferenceable Schema.typeObject ⟨[]⟩ = some false :=
  ⟨(claim_C6_thm Schema.typeString ⟨[]⟩).1.mpr (Or.inl rfl),
   (claim_C6_thm (Schema.typeArray (some (RefOr.item Schema.typeString))) ⟨[]⟩).1.mpr
     (Or.inr (Or.inl ⟨RefOr.item Schema.typeString, Schema.typeString, rfl, rfl, rfl⟩)),
   rfl,
   (claim_C6_thm Schema.typeObject ⟨[]⟩).2 rfl⟩

/-! ## The rename-annotation claim -/

/-- Claim C7: `serde_rename` emits a rename annotation carrying the
original name iff the original differs from the sanitized identifier,
and emits the empty token stream when the two are equal. -/
theorem claim_C7_thm (one : String) (two : Ident) :
    (one = two.val → serdeRename one two = []) ∧
    (one ≠ two.val →
      serdeRename one two = ["#", "[", "serde", "(", "rename", "=", one, ")", "]"] ∧
      one ∈ serdeRename one two) := by
  constructor
  · intro h
    simp [serdeRename, h]
  · intro h
    refine ⟨?_, ?_⟩ <;> simp [serdeRename, h]

/-- Claim C7 witness: equal names emit nothing; a changed name emits an
annotation containing the original. -/
theorem claim_C7_witness :
    serdeRename "a" (Ident.mk "a") = [] ∧
    "+1" ∈ serdeRename "+1" (Ident.mk "PlusOne") :=
  ⟨(claim_C7_thm "a" (Ident.mk "a")).1 rfl,
   ((claim_C7_thm "+1" (Ident.mk "PlusOne")).2 (by decide)).2⟩

/-! ## The import-rendering claim -/

/-- Claim C10: a wildcard import renders `use <path minus its last three
characters>::*;` and its output is independent of the visibility
qualifier, while every successfully rendered non-wildcard import starts
with its visibility qualifier (after the optional feature guard). -/
theorem claim_C10_thm (i : Import) :
    (endsWithStar i.path = true →
      (∀ v : Visibility, Import.toRustCode { i with vis := v } =
        Import.toRustCode { i with vis := Visibility.private_ }) ∧
      (∀ p, 3 ≤ i.path.data.length → parsePath (dropRight3 i.path) = some p →
        Import.toRustCode i =
          some (featureTokens i.feature ++ ["use"] ++ p ++ ["::", "*", ";"]))) ∧
    (endsWithStar i.path = false → ∀ out, Import.toRustCode i = some out →
      ∃ rest, out = featureTokens i.feature ++ Visibility.toRustCode i.vis ++ ["use"] ++ rest) := by
  obtain ⟨path, al, im, vis, feat⟩ := i
  constructor
  · intro hw
    refine ⟨?_, ?_⟩
    · intro v
      simp only [Import.toRustCode, hw, if_true]
    · intro p hlen hp
      simp only [Import.toRustCode, hw, if_true, hp, if_neg (Nat.not_lt.mpr hlen),
        Option.bind_eq_bind, Option.bind_some, Option.some_bind]
      simp [List.append_assoc]
  · intro hw out hout
    cases hp : parsePath path with
    | none => simp [Import.toRustCode, hw, hp] at hout
    | some p =>
      cases al with
      | some a =>
        simp [Import.toRustCode, hw, hp] at hout
        refine ⟨p ++ ["as", a, ";"], ?_⟩
        simp [← hout, List.append_assoc]
      | none =>
        by_cases him : im.isEmpty = true
        · simp [Import.toRustCode, hw, hp, him] at hout
          refine ⟨p ++ [";"], ?_⟩
          simp [← hout, List.append_assoc]
        · cases hit : mapMO ImportItem.toRustCode im with
          | none => simp [Import.toRustCode, hw, hp, him, hit] at hout
          | some items =>
            simp [Import.toRustCode, hw, hp, him, hit] at hout
            refine ⟨p ++ ["::", "\x7b"] ++ joinComma items ++ ["\x7d", ";"], ?_⟩
            simp [← hout, List.append_assoc]

/-- Claim C10 witness: the wildcard import `super::*` renders
identically under public and private visibility, and renders
`use super :: * ;`; the plain import `plaid::model` under crate
visibility renders with its visibility qualifier first. -/
theorem claim_C10_witness :
    Import.toRustCode ⟨"super::*", none, [], Visibility.public, none⟩ =
      Import.toRustCode ⟨"super::*", none, [], Visibility.private_, none⟩ ∧
    Import.toRustCode ⟨"super::*", none, [], Visibility.public, none⟩ =
      some ["use", "super", "::", "*", ";"] ∧
    (∃ rest, ["pub", "(", "crate", ")", "use", "plaid", "::", "model", ";"] =
      featureTokens none ++ Visibility.toRustCode Visibility.crate ++ ["use"] ++ rest) :=
  ⟨((claim_C10_thm ⟨"super::*", none, [], Visibility.public, none⟩).1 (by decide)).1
      Visibility.public,
   ((claim_C10_thm ⟨"super::*", none, [], Visibility.public, none⟩).1 (by decide)).2
      ["super"] (by decide) (by decide),
   (claim_C10_thm ⟨"plaid::model", none, [], Visibility.crate, none⟩).2 (by decide)
      ["pub", "(", "crate", ")", "use", "plaid", "::", "model", ";"] (by decide)⟩

/-! ## Function and class rendering claims -/

theorem arrow_mem_codegenFunction (f : Function) (selfArg : List String) :
    "->" ∈ codegenFunction f selfArg := by
  unfold codegenFunction
  simp [List.mem_append]

/-- Decomposition of a flat-mapped list around one member. -/
theorem flatMap_decomp {α β : Type} {a : α} {l : List α} (f : α → List β) (h : a ∈ l) :
    ∃ pre post, l.flatMap f = pre ++ f a ++ post := by
  obtain ⟨s, t, rfl⟩ := List.append_of_mem h
  exact ⟨s.flatMap f, t.flatMap f,
    by simp [List.flatMap_append, List.flatMap_cons, List.append_assoc]⟩

/-- The shape of a successful `Class::to_rust_code` rendering. -/
theorem class_toRustCode_ok {c : Class} {out : List String}
    (h : Class.toRustCode c = .ok out) :
    ∃ fieldToks,
      out = docTokens c.doc ++ c.decorators.flatMap id ++ pubTok c.public ++
        ["struct", c.name] ++ lifetimeTokens c.lifetimes ++ ["\x7b"] ++ fieldToks ++
        ["\x7d"] ++ ["impl"] ++ lifetimeTokens c.lifetimes ++ [c.name] ++
        lifetimeTokens c.lifetimes ++ ["\x7b"] ++
        c.instance_methods.flatMap (fun m => codegenFunction m ["self", ","]) ++
        c.mut_self_instance_methods.flatMap (fun m => codegenFunction m ["mut", "self", ","]) ++
        c.class_methods.flatMap (fun m => codegenFunction m []) ++ ["\x7d"] := by
  unfold Class.toRustCode at h
  cases hf : mapME (fun f => do
      let n ← sanitizeIdent f.name
      Except.ok (Visibility.toRustCode f.visibility ++ [n.val, ":"] ++ f.ty))
      c.instance_fields with
  | error e =>
    rw [hf] at h
    exact absurd h (by simp [bind, Except.bind])
  | ok fields =>
    rw [hf] at h
    simp only [bind, Except.bind] at h
    injection h with h
    exact ⟨fields.flatMap (fun f => f ++ [","]), by rw [← h]⟩

/-- Every token of a rendered free function comes from one of its
components. -/
theorem mem_function_toRustCode {f : Function} {x : String}
    (hx : x ∈ Function.toRustCode f) :
    x ∈ annTokens f.annotations ∨ x ∈ docTokens f.doc ∨ x ∈ pubTok f.public ∨
    x ∈ asyncTok f.async_ ∨ x = "fn" ∨ x = f.name ∨ x = "(" ∨
    x ∈ joinComma (f.args.map argTokens) ∨ x = ")" ∨
    x ∈ (if f.ret.isEmpty then ([] : List String) else "->" :: f.ret) ∨
    x = "\x7b" ∨ x ∈ f.body ∨ x = "\x7d" := by
  unfold Function.toRustCode at hx
  simp only [List.mem_append, List.mem_cons, List.mem_singleton, List.not_mem_nil,
    or_false] at hx
  tauto

theorem mem_annTokens {anns : List String} {x : String} (hx : x ∈ annTokens anns) :
    x = "#" ∨ x = "[" ∨ x = "]" ∨ x ∈ anns := by
  unfold annTokens at hx
  rw [List.mem_flatMap] at hx
  obtain ⟨a, ha, hxa⟩ := hx
  simp only [List.mem_cons, List.mem_singleton, List.not_mem_nil, or_false] at hxa
  rcases hxa with rfl | rfl | rfl | rfl
  · tauto
  · tauto
  · tauto
  · tauto

theorem mem_joinComma_args {args : List FnArg} {x : String}
    (hx : x ∈ joinComma (args.map argTokens)) :
    x = "," ∨ ∃ a ∈ args, x = a.name ∨ x = ":" ∨ x ∈ a.ty := by
  rcases joinSep_chars [","] _ x hx with h | ⟨w, hw, hxw⟩
  · left; simpa using h
  · right
    rw [List.mem_map] at hw
    obtain ⟨a, ha, rfl⟩ := hw
    refine ⟨a, ha, ?_⟩
    unfold argTokens at hxw
    simp only [List.mem_append, List.mem_cons, List.mem_singleton, List.not_mem_nil,
      or_false] at hxw
    tauto

/-- Claim C2 (counterexample): a function with the empty return type
rendered as a class method by `codegen_function` still carries the
return-type arrow, and so does the class rendering that contains it,
while `Function::to_rust_code` on the same function omits it. -/
theorem claim_C2_counterexample :
    (Function.mk "f" [] [] none false [] [] false []).ret = [] ∧
    codegenFunction (Function.mk "f" [] [] none false [] [] false []) [] =
      ["fn", "f", "(", ")", "->", "\x7b", "\x7d"] ∧
    Function.toRustCode (Function.mk "f" [] [] none false [] [] false []) =
      ["fn", "f", "(", ")", "\x7b", "\x7d"] ∧
    Class.toRustCode
      (Class.mk "C" none [] [] [] [Function.mk "f" [] [] none false [] [] false []]
        false [] []) =
      .ok ["struct", "C", "\x7b", "\x7d", "impl", "C", "\x7b",
           "fn", "f", "(", ")", "->", "\x7b", "\x7d", "\x7d"] := by
  refine ⟨rfl, rfl, rfl, ?_⟩
  decide

/-- Claim C2 (amended): `Function::to_rust_code` omits the return-type
arrow when the return type is empty (no arrow token appears unless one
of the opaque fragments contains it), but the class-method renderer
`codegen_function` always emits the arrow, so every method of a
rendered class carries an arrow token. -/
theorem claim_C2_amended_thm :
    (∀ f : Function, f.ret = [] → "->" ∉ f.body → "->" ∉ f.annotations →
      (∀ a ∈ f.args, a.name ≠ "->" ∧ "->" ∉ a.ty) → f.name ≠ "->" →
      "->" ∉ docTokens f.doc → "->" ∉ Function.toRustCode f) ∧
    (∀ (f : Function) (selfArg : List String), "->" ∈ codegenFunction f selfArg) ∧
    (∀ (c : Class) (m : Function) (out : List String), Class.toRustCode c = .ok out →
      (m ∈ c.instance_methods ∨ m ∈ c.mut_self_instance_methods ∨ m ∈ c.class_methods) →
      "->" ∈ out) := by
  refine ⟨?_, arrow_mem_codegenFunction, ?_⟩
  · intro f hret hbody hanns hargs hname hdoc hmem
    rcases mem_function_toRustCode hmem with h | h | h | h | h | h | h | h | h | h | h | h | h
    · rcases mem_annTokens h with h | h | h | h
      · exact absurd h (by decide)
      · exact absurd h (by decide)
      · exact absurd h (by decide)
      · exact hanns h
    · exact hdoc h
    · unfold pubTok at h
      split at h
      · exact absurd (List.mem_singleton.mp h) (by decide)
      · cases h
    · unfold asyncTok at h
      split at h
      · exact absurd (List.mem_singleton.mp h) (by decide)
      · cases h
    · exact absurd h (by decide)
    · exact hname h.symm
    · exact absurd h (by decide)
    · rcases mem_joinComma_args h with h | ⟨a, ha, h1⟩
      · exact absurd h (by decide)
      · rcases h1 with h1 | h1 | h1
        · exact (hargs a ha).1 h1.symm
        · exact absurd h1 (by decide)
        · exact (hargs a ha).2 h1
    · exact absurd h (by decide)
    · rw [hret] at h
      simp at h
    · exact absurd h (by decide)
    · exact hbody h
    · exact absurd h (by decide)
  · intro c m out hout hmem
    obtain ⟨fieldToks, rfl⟩ := class_toRustCode_ok hout
    rcases hmem with hm | hm | hm
    · obtain ⟨pre, post, heq⟩ :=
        flatMap_decomp (fun m => codegenFunction m ["self", ","]) hm
      rw [heq]
      have harrow := arrow_mem_codegenFunction m ["self", ","]
      simp only [List.mem_append]
      tauto
    · obtain ⟨pre, post, heq⟩ :=
        flatMap_decomp (fun m => codegenFunction m ["mut", "self", ","]) hm
      rw [heq]
      have harrow := arrow_mem_codegenFunction m ["mut", "self", ","]
      simp only [List.mem_append]
      tauto
    · obtain ⟨pre, post, heq⟩ :=
        flatMap_decomp (fun m => codegenFunction m []) hm
      rw [heq]
      have harrow := arrow_mem_codegenFunction m []
      simp only [List.mem_append]
      tauto

/-- Claim C2 witness: the amended theorem applied at a concrete
empty-return function, the same function as an instance method, and a
concrete class rendering. -/
theorem claim_C2_witness :
    "->" ∉ Function.toRustCode (Function.mk "f" [] [] none false [] [] false []) ∧
    "->" ∈ codegenFunction (Function.mk "f" [] [] none false [] [] false []) ["self", ","] ∧
    "->" ∈ ["struct", "C", "\x7b", "\x7d", "impl", "C", "\x7b",
            "fn", "f", "(", ")", "->", "\x7b", "\x7d", "\x7d"] :=
  ⟨claim_C2_amended_thm.1 (Function.mk "f" [] [] none false [] [] false []) rfl
      (by decide) (by decide) (by simp) (by decide) (by decide),
   claim_C2_amended_thm.2.1 (Function.mk "f" [] [] none false [] [] false []) ["self", ","],
   claim_C2_amended_thm.2.2
     (Class.mk "C" none [] [] [] [Function.mk "f" [] [] none false [] [] false []] false [] [])
     (Function.mk "f" [] [] none false [] [] false [])
     ["struct", "C", "\x7b", "\x7d", "impl", "C", "\x7b",
      "fn", "f", "(", ")", "->", "\x7b", "\x7d", "\x7d"]
     (by decide) (Or.inr (Or.inr (by decide)))⟩

/-- Claim C9 (counterexample): a mutating instance method is rendered
with the implicit first parameter `mut self` taken by value; no borrow
token `&` appears anywhere in the rendering, so the first parameter is
not a mutable borrow of the owning value. -/
theorem claim_C9_counterexample :
    Class.toRustCode
      (Class.mk "C" none [] [] [Function.mk "m" [] [] none false [] [] true []] [] true [] []) =
      .ok ["pub", "struct", "C", "\x7b", "\x7d", "impl", "C", "\x7b", "pub", "fn", "m",
           "(", "mut", "self", ",", ")", "->", "\x7b", "\x7d", "\x7d"] ∧
    "&" ∉ ["pub", "struct", "C", "\x7b", "\x7d", "impl", "C", "\x7b", "pub", "fn", "m",
           "(", "mut", "self", ",", ")", "->", "\x7b", "\x7d", "\x7d"] := by
  constructor <;> decide

/-- Claim C9 (amended): every mutating instance method is rendered
through `codegen_function` with the implicit first parameter `mut self`
(the owning value taken by value under a mutable binding, not a mutable
borrow), and every associated/static method is rendered with no
implicit first parameter; `codegen_function` places the given implicit
argument tokens immediately after the opening parenthesis. -/
theorem claim_C9_amended_thm :
    (∀ (g : Function) (selfArg : List String), ∃ pre post,
        codegenFunction g selfArg = pre ++ ["fn", g.name, "("] ++ selfArg ++ post) ∧
    (∀ (c : Class) (m : Function) (out : List String), Class.toRustCode c = .ok out →
        m ∈ c.mut_self_instance_methods →
        ∃ pre post, out = pre ++ codegenFunction m ["mut", "self", ","] ++ post) ∧
    (∀ (c : Class) (m : Function) (out : List String), Class.toRustCode c = .ok out →
        m ∈ c.class_methods →
        ∃ pre post, out = pre ++ codegenFunction m [] ++ post) := by
  refine ⟨?_, ?_, ?_⟩
  · intro g selfArg
    refine ⟨pubTok g.public ++ asyncTok g.async_,
      joinComma (g.args.map argTokens) ++ [")", "->"] ++ g.ret ++
        ["\x7b"] ++ g.body ++ ["\x7d"], ?_⟩
    unfold codegenFunction
    simp [List.append_assoc]
  · intro c m out hout hm
    obtain ⟨fieldToks, rfl⟩ := class_toRustCode_ok hout
    obtain ⟨pre, post, heq⟩ :=
      flatMap_decomp (fun m => codegenFunction m ["mut", "self", ","]) hm
    rw [heq]
    refine ⟨docTokens c.doc ++ c.decorators.flatMap id ++ pubTok c.public ++
      ["struct", c.name] ++ lifetimeTokens c.lifetimes ++ ["\x7b"] ++ fieldToks ++
      ["\x7d"] ++ ["impl"] ++ lifetimeTokens c.lifetimes ++ [c.name] ++
      lifetimeTokens c.lifetimes ++ ["\x7b"] ++
      c.instance_methods.flatMap (fun m => codegenFunction m ["self", ","]) ++ pre,
      post ++ c.class_methods.flatMap (fun m => codegenFunction m []) ++ ["\x7d"], ?_⟩
    simp [List.append_assoc]
  · intro c m out hout hm
    obtain ⟨fieldToks, rfl⟩ := class_toRustCode_ok hout
    obtain ⟨pre, post, heq⟩ := flatMap_decomp (fun m => codegenFunction m []) hm
    rw [heq]
    refine ⟨docTokens c.doc ++ c.decorators.flatMap id ++ pubTok c.public ++
      ["struct", c.name] ++ lifetimeTokens c.lifetimes ++ ["\x7b"] ++ fieldToks ++
      ["\x7d"] ++ ["impl"] ++ lifetimeTokens c.lifetimes ++ [c.name] ++
      lifetimeTokens c.lifetimes ++ ["\x7b"] ++
      c.instance_methods.flatMap (fun m => codegenFunction m ["self", ","]) ++
      c.mut_self_instance_methods.flatMap (fun m => codegenFunction m ["mut", "self", ","]) ++
      pre, post ++ ["\x7d"], ?_⟩
    simp [List.append_assoc]

/-- Claim C9 witness: the amended theorem applied at a concrete class
with one mutating instance method and one class method. -/
theorem claim_C9_witness :
    (∃ pre post, codegenFunction (Function.mk "m" [] [] none false [] [] true []) 
        ["mut", "self", ","] =
      pre ++ ["fn", "m", "("] ++ ["mut", "self", ","] ++ post) ∧
    (∃ pre post,
      ["pub", "struct", "C", "\x7b", "\x7d", "impl", "C", "\x7b", "pub", "fn", "m",
       "(", "mut", "self", ",", ")", "->", "\x7b", "\x7d",
       "fn", "g", "(", ")", "->", "\x7b", "\x7d", "\x7d"] =
      pre ++ codegenFunction (Function.mk "m" [] [] none false [] [] true [])
        ["mut", "self", ","] ++ post) ∧
    (∃ pre post,
      ["pub", "struct", "C", "\x7b", "\x7d", "impl", "C", "\x7b", "pub", "fn", "m",
       "(", "mut", "self", ",", ")", "->", "\x7b", "\x7d",
       "fn", "g", "(", ")", "->", "\x7b", "\x7d", "\x7d"] =
      pre ++ codegenFunction (Function.mk "g" [] [] none false [] [] false []) [] ++ post) :=
  ⟨claim_C9_amended_thm.1 (Function.mk "m" [] [] none false [] [] true []) ["mut", "self", ","],
   claim_C9_amended_thm.2.1
     (Class.mk "C" none [] [] [Function.mk "m" [] [] none false [] [] true []]
       [Function.mk "g" [] [] none false [] [] false []] true [] [])
     (Function.mk "m" [] [] none false [] [] true []) _ (by decide) (by decide),
   claim_C9_amended_thm.2.2
     (Class.mk "C" none [] [] [Function.mk "m" [] [] none false [] [] true []]
       [Function.mk "g" [] [] none false [] [] false []] true [] [])
     (Function.mk "g" [] [] none false [] [] false []) _ (by decide) (by decide)⟩

/-! ## Lemmas: the example-value synthesizer -/

theorem bindE_ok {ε α β : Type} {x : Except ε α} {g : α → Except ε β} {b : β}
    (h : (x >>= g) = .ok b) : ∃ a, x = .ok a ∧ g a = .ok b := by
  cases x with
  | error e =>
    exact Except.noConfusion (show (Except.error e : Except ε β) = .ok b from h)
  | ok a => exact ⟨a, rfl, by simpa only [bind, Except.bind] using h⟩

theorem mapME_ok_length {α β ε : Type} {f : α → Except ε β} :
    ∀ {l : List α} {bs : List β}, mapME f l = .ok bs → bs.length = l.length := by
  intro l
  induction l with
  | nil => intro bs h; cases bs with
    | nil => rfl
    | cons b bs => simp [mapME] at h
  | cons a l ih =>
    intro bs h
    unfold mapME at h
    obtain ⟨b, hb, h⟩ := bindE_ok h
    obtain ⟨bs2, hbs2, h⟩ := bindE_ok h
    injection h with h
    rw [← h]
    simp [ih hbs2]

theorem mapME_ok_get {α β ε : Type} {f : α → Except ε β} :
    ∀ {l : List α} {bs : List β}, mapME f l = .ok bs →
      ∀ (i : Nat) (h1 : i < l.length) (h2 : i < bs.length),
        f (l.get ⟨i, h1⟩) = .ok (bs.get ⟨i, h2⟩) := by
  intro l
  induction l with
  | nil => intro bs h i h1 h2; exact absurd h1 (by simp)
  | cons a l ih =>
    intro bs h i h1 h2
    unfold mapME at h
    obtain ⟨b, hb, h⟩ := bindE_ok h
    obtain ⟨bs2, hbs2, h⟩ := bindE_ok h
    injection h with h
    subst h
    cases i with
    | zero => simpa using hb
    | succ j =>
      have hj1 : j < l.length := by simpa using h1
      have hj2 : j < bs2.length := by simpa using h2
      simpa using ih hbs2 j hj1 hj2

theorem mapME_mono {α β ε : Type} {f g : α → Except ε β} :
    ∀ {l : List α} {bs : List β},
      (∀ a ∈ l, ∀ b, f a = .ok b → g a = .ok b) →
      mapME f l = .ok bs → mapME g l = .ok bs := by
  intro l
  induction l with
  | nil => intro bs _ h; exact h
  | cons a l ih =>
    intro bs hfg h
    unfold mapME at h ⊢
    obtain ⟨b, hb, h⟩ := bindE_ok h
    obtain ⟨bs2, hbs2, h⟩ := bindE_ok h
    injection h with h
    rw [hfg a (List.mem_cons_self _ _) b hb]
    rw [ih (fun x hx => hfg x (List.mem_cons_of_mem _ hx)) hbs2]
    simp only [bind, Except.bind]
    rw [h]

theorem toREV_succ (fuel : Nat) (ty : Ty) (name : String) (spec : HirSpec)
    (useRef : Bool) :
    toRustExampleValue (fuel + 1) ty name spec useRef =
      exampleStep (toRustExampleValue fuel) ty name spec useRef := rfl

/-- Inversion of the `Record::Struct` branch of the synthesizer. -/
theorem model_struct_ok_inv {fuel : Nat} {m name : String} {spec : HirSpec}
    {useRef : Bool} {nm : String} {fields : List (String × HirField)} {nb : Bool}
    {e : Expr}
    (hrec : getRecord spec m = .ok (.struct nm fields nb))
    (h : toRustExampleValue (fuel + 1) (.model m) name spec useRef = .ok e) :
    ∃ comps mid,
      mapME (structFieldE (toRustExampleValue fuel) (endsRequired m) spec) fields =
        .ok comps ∧
      toRustStructE m = .ok mid ∧ e = .structLit mid comps := by
  rw [toREV_succ] at h
  simp only [exampleStep] at h
  rw [hrec] at h
  simp only [bind, Except.bind, recordExample] at h
  obtain ⟨comps, hcomps, h⟩ := bindE_ok h
  obtain ⟨mid, hmid, h⟩ := bindE_ok h
  injection h with h
  exact ⟨comps, mid, hcomps, hmid, h.symm⟩

/-- Inversion of the per-field step: the recursive call is made with the
borrow flag `force_ref && !optional`, and the value is wrapped in `Some`
exactly when the field is optional. -/
theorem structFieldE_ok_inv {rec : Ty → String → HirSpec → Bool → Except EErr Expr}
    {forceRef : Bool} {spec : HirSpec} {p : String × HirField} {out : Ident × Expr}
    (h : structFieldE rec forceRef spec p = .ok out) :
    ∃ v n, rec p.2.ty p.1 spec (forceRef && !p.2.optional) = .ok v ∧
      toRustIdentE p.1 = .ok n ∧
      out = (n, if p.2.optional then Expr.someE v else v) := by
  unfold structFieldE at h
  have hflag : (!(!forceRef || p.2.optional)) = (forceRef && !p.2.optional) := by
    cases forceRef <;> cases p.2.optional <;> rfl
  rw [hflag] at h
  obtain ⟨v, hv, h⟩ := bindE_ok h
  obtain ⟨n, hn, h⟩ := bindE_ok h
  injection h with h
  exact ⟨v, n, hv, hn, h.symm⟩

/-! ## The struct-synthesis claim -/

/-- Claim C1 (counterexample): the model name `FooRequired` sets
`force_ref`, its single field is not optional, and the synthesized
field value is the borrowed string literal, so a field is borrowed in
exactly the case the claim excludes. -/
theorem claim_C1_counterexample :
    endsRequired "FooRequired" = true ∧
    toRustExampleValue 2 (Ty.model "FooRequired") "x"
      [("FooRequired", Record.struct "FooRequired" [("a", HirField.mk Ty.string false)] false)]
      false =
      .ok (Expr.structLit (Ident.mk "FooRequired")
        [(Ident.mk "a", Expr.strRef "your a")]) :=
  ⟨by decide, rfl⟩

/-- Claim C1 (amended): in a synthesized struct example the value of
field `i` is produced by a recursive call whose borrow flag is
`force_ref && !optional` — borrowed exactly when the model name ends in
`"Required"` and the field is not optional (not when `force_ref` is
false or the field is optional, as claimed) — and each optional field's
value is wrapped in `Some`. -/
theorem claim_C1_amended_thm (fuel : Nat) (m name : String) (spec : HirSpec)
    (useRef : Bool) (nm : String) (fields : List (String × HirField)) (nb : Bool)
    (mid : Ident) (comps : List (Ident × Expr))
    (hrec : getRecord spec m = .ok (.struct nm fields nb))
    (h : toRustExampleValue (fuel + 1) (.model m) name spec useRef =
      .ok (.structLit mid comps)) :
    comps.length = fields.length ∧
    ∀ (i : Nat) (h1 : i < fields.length) (h2 : i < comps.length), ∃ v,
      toRustExampleValue fuel (fields.get ⟨i, h1⟩).2.ty (fields.get ⟨i, h1⟩).1 spec
        (endsRequired m && !(fields.get ⟨i, h1⟩).2.optional) = .ok v ∧
      (comps.get ⟨i, h2⟩).2 =
        (if (fields.get ⟨i, h1⟩).2.optional then Expr.someE v else v) := by
  obtain ⟨comps2, mid2, hcomps, hmid, he⟩ := model_struct_ok_inv hrec h
  injection he with he1 he2
  subst he2
  refine ⟨mapME_ok_length hcomps, ?_⟩
  intro i h1 h2
  have hfield := mapME_ok_get hcomps i h1 h2
  obtain ⟨v, n, hv, hn, hout⟩ := structFieldE_ok_inv hfield
  exact ⟨v, hv, by rw [hout]⟩

/-- Claim C1 witness: the amended theorem applied at the concrete
`FooRequired` model; the field value is synthesized with the borrow
flag set and is the borrowed literal. -/
theorem claim_C1_witness :
    ([(Ident.mk "a", Expr.strRef "your a")] : List (Ident × Expr)).length =
      ([("a", HirField.mk Ty.string false)] : List (String × HirField)).length ∧
    ∀ (i : Nat) (h1 : i < ([("a", HirField.mk Ty.string false)] :
        List (String × HirField)).length)
      (h2 : i < ([(Ident.mk "a", Expr.strRef "your a")] : List (Ident × Expr)).length), ∃ v,
      toRustExampleValue 1
        (([("a", HirField.mk Ty.string false)] :
          List (String × HirField)).get ⟨i, h1⟩).2.ty
        (([("a", HirField.mk Ty.string false)] :
          List (String × HirField)).get ⟨i, h1⟩).1
        [("FooRequired", Record.struct "FooRequired"
          [("a", HirField.mk Ty.string false)] false)]
        (endsRequired "FooRequired" &&
          !(([("a", HirField.mk Ty.string false)] :
            List (String × HirField)).get ⟨i, h1⟩).2.optional) = .ok v ∧
      (([(Ident.mk "a", Expr.strRef "your a")] :
        List (Ident × Expr)).get ⟨i, h2⟩).2 =
        (if (([("a", HirField.mk Ty.string false)] :
          List (String × HirField)).get ⟨i, h1⟩).2.optional
         then Expr.someE v else v) :=
  claim_C1_amended_thm 1 "FooRequired" "x"
    [("FooRequired", Record.struct "FooRequired" [("a", HirField.mk Ty.string false)] false)]
    false "FooRequired" [("a", HirField.mk Ty.string false)] false
    (Ident.mk "FooRequired") [(Ident.mk "a", Expr.strRef "your a")] (by decide) rfl

/-! ## Lemmas: fuel monotonicity and totality of the synthesizer -/

theorem toRustIdentE_ok {s r : String} (h : sanitize s = .ok r) :
    toRustIdentE s = .ok (Ident.mk r) := by
  unfold toRustIdentE sanitizeIdent
  rw [h]
  rfl

theorem toRustStructE_ok {s : String} {i : Ident} (h : sanitizeStruct s = .ok i) :
    toRustStructE s = .ok i := by
  unfold toRustStructE
  rw [h]

theorem isOk_exists {ε α : Type} {x : Except ε α} (h : x.isOk = true) :
    ∃ a, x = .ok a := by
  cases x with
  | error e => simp [Except.isOk, Except.toBool] at h
  | ok a => exact ⟨a, rfl⟩

theorem structFieldE_mono {rec1 rec2 : Ty → String → HirSpec → Bool → Except EErr Expr}
    (hrec : ∀ ty name spec useRef e, rec1 ty name spec useRef = .ok e →
      rec2 ty name spec useRef = .ok e)
    {forceRef : Bool} {spec : HirSpec} (p : String × HirField) (b : Ident × Expr)
    (h : structFieldE rec1 forceRef spec p = .ok b) :
    structFieldE rec2 forceRef spec p = .ok b := by
  unfold structFieldE at h ⊢
  obtain ⟨v, hv, h⟩ := bindE_ok h
  rw [hrec _ _ _ _ _ hv]
  simp only [bind, Except.bind]
  exact h

theorem exampleStep_mono {rec1 rec2 : Ty → String → HirSpec → Bool → Except EErr Expr}
    (hrec : ∀ ty name spec useRef e, rec1 ty name spec useRef = .ok e →
      rec2 ty name spec useRef = .ok e) :
    ∀ (ty : Ty) (name : String) (spec : HirSpec) (useRef : Bool) (e : Expr),
      exampleStep rec1 ty name spec useRef = .ok e →
      exampleStep rec2 ty name spec useRef = .ok e := by
  intro ty name spec useRef e h
  cases ty with
  | string => exact h
  | integer => exact h
  | float => exact h
  | boolean => exact h
  | array inner =>
    simp only [exampleStep] at h ⊢
    obtain ⟨v, hv, h⟩ := bindE_ok h
    rw [hrec _ _ _ _ _ hv]
    simp only [bind, Except.bind]
    exact h
  | model m =>
    simp only [exampleStep] at h ⊢
    obtain ⟨record, hr, h⟩ := bindE_ok h
    rw [hr]
    simp only [bind, Except.bind]
    cases record with
    | struct nm fields nb =>
      simp only [recordExample] at h ⊢
      obtain ⟨fs, hfs, h⟩ := bindE_ok h
      rw [mapME_mono (fun p _ b hb => structFieldE_mono hrec p b hb) hfs]
      simp only [bind, Except.bind]
      exact h
    | newtype nm nfields =>
      simp only [recordExample] at h ⊢
      obtain ⟨args, hargs, h⟩ := bindE_ok h
      rw [mapME_mono (fun f _ b hb => hrec _ _ _ _ _ hb) hargs]
      simp only [bind, Except.bind]
      exact h
    | enum nm variants => exact h
    | typeAlias nm f =>
      simp only [recordExample] at h ⊢
      obtain ⟨v, hv, h⟩ := bindE_ok h
      rw [hrec _ _ _ _ _ hv]
      simp only [bind, Except.bind]
      exact h
  | unit => exact h
  | any => exact h
  | date => exact h
  | dateTime => exact h
  | currency => exact h

theorem toREV_mono : ∀ (fuel fuel' : Nat), fuel ≤ fuel' →
    ∀ (ty : Ty) (name : String) (spec : HirSpec) (useRef : Bool) (e : Expr),
      toRustExampleValue fuel ty name spec useRef = .ok e →
      toRustExampleValue fuel' ty name spec useRef = .ok e := by
  intro fuel
  induction fuel with
  | zero =>
    intro fuel' _ ty name spec useRef e h
    simp [toRustExampleValue] at h
  | succ n ih =>
    intro fuel' hle ty name spec useRef e h
    obtain ⟨k, rfl⟩ : ∃ k, fuel' = k + 1 := ⟨fuel' - 1, by omega⟩
    rw [toREV_succ] at h ⊢
    exact exampleStep_mono
      (fun ty2 n2 s2 r2 e2 h2 => ih k (by omega) ty2 n2 s2 r2 e2 h2)
      ty name spec useRef e h

theorem mapME_fuel_exists {α β : Type} (F : Nat → α → Except EErr β)
    (hmono : ∀ a fuel fuel' b, fuel ≤ fuel' → F fuel a = .ok b → F fuel' a = .ok b) :
    ∀ (l : List α), (∀ a ∈ l, ∃ fuel b, F fuel a = .ok b) →
      ∃ fuel bs, mapME (F fuel) l = .ok bs := by
  intro l
  induction l with
  | nil => intro _; exact ⟨0, [], rfl⟩
  | cons a l ih =>
    intro hall
    obtain ⟨f1, b, hb⟩ := hall a (List.mem_cons_self _ _)
    obtain ⟨f2, bs, hbs⟩ := ih (fun x hx => hall x (List.mem_cons_of_mem _ hx))
    refine ⟨max f1 f2, b :: bs, ?_⟩
    unfold mapME
    rw [hmono a f1 (max f1 f2) b (le_max_left f1 f2) hb]
    simp only [bind, Except.bind]
    rw [mapME_mono (fun x _ c hc => hmono x f2 (max f1 f2) c (le_max_right f1 f2) hc) hbs]

theorem getRecord_mem : ∀ (spec : HirSpec) (m : String) (r : Record),
    getRecord spec m = .ok r → (m, r) ∈ spec := by
  intro spec
  induction spec with
  | nil => intro m r h; simp [getRecord] at h
  | cons p rest ih =>
    intro m r h
    obtain ⟨k, r0⟩ := p
    unfold getRecord at h
    split_ifs at h with hk
    · injection h with h
      subst hk
      subst h
      exact List.mem_cons_self _ _
    · exact List.mem_cons_of_mem _ (ih m r h)

theorem specOk_getRecord {spec : HirSpec} (hok : specOk spec = true) {m : String}
    {r : Record} (h : getRecord spec m = .ok r) : recordOk spec m r = true := by
  have hmem := getRecord_mem spec m r h
  simpa using List.all_eq_true.mp hok (m, r) hmem

theorem le_foldr_max : ∀ (l : List Nat), ∀ x ∈ l, x ≤ l.foldr max 0 := by
  intro l
  induction l with
  | nil => intro x hx; cases hx
  | cons a l ih =>
    intro x hx
    rcases List.mem_cons.mp hx with rfl | hx
    · exact le_max_left _ _
    · exact le_trans (ih x hx) (le_max_right a _)

/-- Totality of the synthesizer under the decidable well-formedness
conditions and an acyclicity rank: some fuel makes it return `Ok`. -/
theorem toREV_total (spec : HirSpec) (rank : String → Nat)
    (hspec : specOk spec = true) (hrank : RanksDescend spec rank) :
    ∀ (N : Nat) (ty : Ty),
      (∀ m2 ∈ ty.models, rank m2 < N ∧ (getRecord spec m2).isOk = true) →
      ∀ (name : String) (useRef : Bool),
        ∃ fuel e, toRustExampleValue fuel ty name spec useRef = .ok e := by
  intro N
  induction N using Nat.strong_induction_on with
  | _ N IHN =>
    intro ty
    induction ty with
    | string =>
      intro _ name useRef
      cases useRef
      · exact ⟨1, _, rfl⟩
      · exact ⟨1, _, rfl⟩
    | integer => intro _ name useRef; exact ⟨1, _, rfl⟩
    | float => intro _ name useRef; exact ⟨1, _, rfl⟩
    | boolean => intro _ name useRef; exact ⟨1, _, rfl⟩
    | unit => intro _ name useRef; exact ⟨1, _, rfl⟩
    | any => intro _ name useRef; exact ⟨1, _, rfl⟩
    | date => intro _ name useRef; exact ⟨1, _, rfl⟩
    | dateTime => intro _ name useRef; exact ⟨1, _, rfl⟩
    | currency => intro _ name useRef; exact ⟨1, _, rfl⟩
    | array inner ihinner =>
      intro hm name useRef
      obtain ⟨fuel, e, he⟩ :=
        ihinner hm name (if !inner.isReferenceType then false else useRef)
      refine ⟨fuel + 1,
        if (if !inner.isReferenceType then false else useRef) then Expr.refSlice e
        else Expr.vecOf e, ?_⟩
      rw [toREV_succ]
      simp only [exampleStep]
      rw [he]
      simp only [bind, Except.bind]
      by_cases hB : (if !inner.isReferenceType then false else useRef) = true
      · rw [if_pos hB, if_pos hB]
      · rw [if_neg hB, if_neg hB]
    | model m =>
      intro hm name useRef
      have hm1 := hm m (by simp [Ty.models])
      obtain ⟨r, hr⟩ := isOk_exists hm1.2
      have hrOk := specOk_getRecord hspec hr
      cases r with
      | struct nm fields nb =>
        simp only [recordOk, Bool.and_eq_true, List.all_eq_true] at hrOk
        obtain ⟨⟨hresolve, hnames⟩, hsm⟩ := hrOk
        have hfields : ∀ p ∈ fields, ∃ fuel b,
            structFieldE (toRustExampleValue fuel) (endsRequired m) spec p = .ok b := by
          intro p hp
          have hmodels : ∀ m2 ∈ p.2.ty.models,
              rank m2 < rank m ∧ (getRecord spec m2).isOk = true := by
            intro m2 hm2
            have hmem : m2 ∈ (Record.struct nm fields nb).models := by
              simp only [Record.models]
              rw [List.mem_flatMap]
              exact ⟨p, hp, hm2⟩
            exact ⟨hrank m _ hr m2 hmem, hresolve m2 hmem⟩
          obtain ⟨fuel, v, hv⟩ := IHN (rank m) hm1.1 p.2.ty hmodels p.1
            (!(!endsRequired m || p.2.optional))
          obtain ⟨idn, hidn⟩ := isOk_exists (hnames p hp)
          refine ⟨fuel, (Ident.mk idn, if p.2.optional then Expr.someE v else v), ?_⟩
          unfold structFieldE
          rw [hv]
          simp only [bind, Except.bind]
          rw [toRustIdentE_ok hidn]
        obtain ⟨fuel, comps, hcomps⟩ := mapME_fuel_exists
          (fun fuel p => structFieldE (toRustExampleValue fuel) (endsRequired m) spec p)
          (fun p f f2 b hle hb =>
            structFieldE_mono (fun t n s u e2 h2 => toREV_mono f f2 hle t n s u e2 h2) p b hb)
          fields hfields
        obtain ⟨mids, hmids⟩ := isOk_exists hsm
        refine ⟨fuel + 1, .structLit mids comps, ?_⟩
        rw [toREV_succ]
        simp only [exampleStep]
        rw [hr]
        simp only [bind, Except.bind, recordExample]
        rw [hcomps]
        simp only [bind, Except.bind]
        rw [toRustStructE_ok hmids]
      | newtype nm nfields =>
        simp only [recordOk, Bool.and_eq_true, List.all_eq_true] at hrOk
        obtain ⟨hresolve, hsn⟩ := hrOk
        have hfields : ∀ f ∈ nfields, ∃ fuel b,
            toRustExampleValue fuel f.ty nm spec false = .ok b := by
          intro f hf
          have hmodels : ∀ m2 ∈ f.ty.models,
              rank m2 < rank m ∧ (getRecord spec m2).isOk = true := by
            intro m2 hm2
            have hmem : m2 ∈ (Record.newtype nm nfields).models := by
              simp only [Record.models]
              rw [List.mem_flatMap]
              exact ⟨f, hf, hm2⟩
            exact ⟨hrank m _ hr m2 hmem, hresolve m2 hmem⟩
          exact IHN (rank m) hm1.1 f.ty hmodels nm false
        obtain ⟨fuel, args, hargs⟩ := mapME_fuel_exists
          (fun fuel f => toRustExampleValue fuel f.ty nm spec false)
          (fun f f1 f2 b hle hb => toREV_mono f1 f2 hle f.ty nm spec false b hb)
          nfields hfields
        obtain ⟨nid, hnid⟩ := isOk_exists hsn
        refine ⟨fuel + 1, .newtypeLit nid args, ?_⟩
        rw [toREV_succ]
        simp only [exampleStep]
        rw [hr]
        simp only [bind, Except.bind, recordExample]
        rw [hargs]
        simp only [bind, Except.bind]
        rw [toRustStructE_ok hnid]
      | enum nm variants =>
        cases variants with
        | nil => simp [recordOk] at hrOk
        | cons v vs =>
          simp only [recordOk, Bool.and_eq_true] at hrOk
          obtain ⟨vi, hvi⟩ := isOk_exists hrOk.1
          obtain ⟨mi, hmi⟩ := isOk_exists hrOk.2
          refine ⟨1, .enumVariant mi vi, ?_⟩
          rw [toREV_succ]
          simp only [exampleStep]
          rw [hr]
          simp only [bind, Except.bind, recordExample, enumExample]
          rw [toRustStructE_ok hvi]
          simp only [bind, Except.bind]
          rw [toRustStructE_ok hmi]
      | typeAlias nm f =>
        simp only [recordOk, List.all_eq_true] at hrOk
        have hmodels : ∀ m2 ∈ f.ty.models,
            rank m2 < rank m ∧ (getRecord spec m2).isOk = true := by
          intro m2 hm2
          have hmem : m2 ∈ (Record.typeAlias nm f).models := hm2
          exact ⟨hrank m _ hr m2 hmem, hrOk m2 hmem⟩
        obtain ⟨fuel, v, hv⟩ := IHN (rank m) hm1.1 f.ty hmodels nm
          (!endsRequired m || !f.optional)
        refine ⟨fuel + 1, if f.optional then Expr.someE v else v, ?_⟩
        rw [toREV_succ]
        simp only [exampleStep]
        rw [hr]
        simp only [bind, Except.bind, recordExample]
        rw [hv]
        simp only [bind, Except.bind]
        by_cases ho : f.optional = true
        · rw [if_pos ho, if_pos ho]
        · rw [if_neg ho, if_neg ho]

/-! ## The synthesis-totality claim -/

/-- Claim C3 (counterexample): a well-formed, acyclic type whose single
model reference resolves to an Enum record with zero declared variants
makes the synthesizer panic (`variants.first().unwrap()`) instead of
returning Ok. -/
theorem claim_C3_counterexample :
    getRecord [("E", Record.enum "E" [])] "E" = .ok (Record.enum "E" []) ∧
    toRustExampleValue 2 (Ty.model "E") "x" [("E", Record.enum "E" [])] false =
      .error EErr.emptyEnumPanic :=
  ⟨rfl, rfl⟩

/-- Claim C3 (amended): for every acyclic spec document whose records
resolve all their model references, sanitize all the names they route
through the sanitizer, and declare at least one variant per referenced
enum, synthesis of every type whose own model references resolve
succeeds with enough fuel; and in a synthesized struct the optional
fields are wrapped in `Some` while the required fields carry the bare
recursively synthesized value. -/
theorem claim_C3_amended_thm (spec : HirSpec) (rank : String → Nat)
    (hspec : specOk spec = true) (hrank : RanksDescend spec rank) :
    (∀ (ty : Ty) (name : String) (useRef : Bool),
      ty.models.all (fun m2 => (getRecord spec m2).isOk) = true →
      ∃ fuel e, toRustExampleValue fuel ty name spec useRef = .ok e) ∧
    (∀ (fuel : Nat) (m name : String) (useRef : Bool) (nm : String)
      (fields : List (String × HirField)) (nb : Bool) (mid : Ident)
      (comps : List (Ident × Expr)),
      getRecord spec m = .ok (.struct nm fields nb) →
      toRustExampleValue (fuel + 1) (.model m) name spec useRef =
        .ok (.structLit mid comps) →
      ∀ (i : Nat) (h1 : i < fields.length) (h2 : i < comps.length),
        ((fields.get ⟨i, h1⟩).2.optional = true →
          ∃ v, (comps.get ⟨i, h2⟩).2 = Expr.someE v) ∧
        ((fields.get ⟨i, h1⟩).2.optional = false →
          ∃ v, toRustExampleValue fuel (fields.get ⟨i, h1⟩).2.ty
            (fields.get ⟨i, h1⟩).1 spec
            (endsRequired m && !(fields.get ⟨i, h1⟩).2.optional) = .ok v ∧
          (comps.get ⟨i, h2⟩).2 = v)) := by
  constructor
  · intro ty name useRef hres
    refine toREV_total spec rank hspec hrank ((ty.models.map rank).foldr max 0 + 1) ty
      (fun m2 hm2 => ⟨?_, ?_⟩) name useRef
    · exact Nat.lt_succ_of_le (le_foldr_max _ _ (List.mem_map_of_mem rank hm2))
    · simpa using List.all_eq_true.mp hres m2 hm2
  · intro fuel m name useRef nm fields nb mid comps hrec h i h1 h2
    obtain ⟨comps2, mid2, hcomps, hmid, he⟩ := model_struct_ok_inv hrec h
    injection he with he1 he2
    subst he2
    have hfield := mapME_ok_get hcomps i h1 h2
    obtain ⟨v, n, hv, hn, hout⟩ := structFieldE_ok_inv hfield
    constructor
    · intro hopt
      refine ⟨v, ?_⟩
      rw [hout, if_pos hopt]
    · intro hopt
      refine ⟨v, hv, ?_⟩
      rw [hout, if_neg (by rw [hopt]; simp)]

/-- Claim C3 witness: the amended theorem applied to a one-record spec
document with an optional string field and a required boolean field. -/
theorem claim_C3_witness :
    ∃ fuel e, toRustExampleValue fuel (Ty.model "M") "x"
      [("M", Record.struct "M"
        [("a", HirField.mk Ty.string true), ("b", HirField.mk Ty.boolean false)] false)]
      false = .ok e :=
  (claim_C3_amended_thm
    [("M", Record.struct "M"
      [("a", HirField.mk Ty.string true), ("b", HirField.mk Ty.boolean false)] false)]
    (fun _ => 0) (by decide)
    (by
      intro m r h m2 hm2
      have hmem := getRecord_mem _ _ _ h
      have heq := List.mem_singleton.mp hmem
      injection heq with heq1 heq2
      subst heq1
      subst heq2
      simp [Record.models, Ty.models] at hm2)).1
    (Ty.model "M") "x" false (by decide)

end Codegen
